import Mathlib

/-!
Verification of the file-compass chunker (`file_compass/chunker.py`) and the
gateway preview tool (`file_compass/gateway.py`) against the natural-language
specification.

Python strings are modelled as `List Char` (Python indexes and slices strings
by code point, which `List Char` reproduces exactly).  Machine integers do not
overflow in the modelled code paths, so `Nat`/`Int` are used directly.

Floating point: the source computes `int(len(text.split()) * 1.3)` and
`int(max_tokens * chars_per_token)`.  These are modelled by the exact rational
floors `13 * w / 10` and `max_tokens * len / tokens` (natural division).  For
`w * 1.3` the double `1.3` is slightly above 13/10, and `int(w * 1.3)` agrees
with `13 * w / 10` for every word count below 2^50, far beyond any real file.
The `chars_per_token` quantities only position window boundaries; all theorems
below hold for every value of those two parameters.
-/

namespace FileCompass

/-- Python strings, modelled as lists of code points. -/
abbrev Str := List Char

/-- Whitespace for Python `str.split()` / `str.strip()` / `\s` (ASCII part). -/
def pySpace (c : Char) : Bool :=
  c = ' ' || c = '\t' || c = '\n' || c = '\r' || c = '\x0b' || c = '\x0c'

/-- `content.split("\n")`: split on every newline, keeping empty pieces.
`splitNl []` is `[[]]` just as `"".split("\n") == [""]`. -/
def splitNl : Str → List Str
  | [] => [[]]
  | c :: rest =>
    if c = '\n' then [] :: splitNl rest
    else
      match splitNl rest with
      | [] => [[c]]
      | h :: t => (c :: h) :: t

/-- `"\n".join(lines)`. -/
def joinNl : List Str → Str
  | [] => []
  | [l] => l
  | l :: ls => l ++ '\n' :: joinNl ls

/-- `len(text.split())`: number of maximal whitespace-free runs. -/
def wordCount (s : Str) : Nat :=
  ((List.splitOnP pySpace s).filter (fun w => !w.isEmpty)).length

/-- `FileChunker._estimate_tokens`: `int(len(text.split()) * 1.3)`. -/
def estimateTokens (s : Str) : Nat :=
  13 * wordCount s / 10

/-- Python `s.rstrip()` restricted to whitespace (used to state the claim). -/
def pyRStrip (s : Str) : Str :=
  (s.reverse.dropWhile pySpace).reverse

/-- Python `s.strip()`: removes leading and trailing whitespace. -/
def pyStrip (s : Str) : Str :=
  pyRStrip (s.dropWhile pySpace)

/-- `FileChunker._make_preview`: `content[:200].strip()` plus `"..."` iff the
content is longer than 200 characters. -/
def makePreview (content : Str) : Str :=
  let p := pyStrip (content.take 200)
  if 200 < content.length then p ++ "...".toList else p

/-- The `Chunk` dataclass of `chunker.py`. -/
structure Chunk where
  content : Str
  chunk_type : Str
  name : Option Str
  line_start : Nat
  line_end : Nat
  preview : Str
deriving DecidableEq, Repr

/-- `Chunk.token_estimate`: `int(len(self.content.split()) * 1.3)`. -/
def Chunk.tokenEstimate (c : Chunk) : Nat :=
  13 * wordCount c.content / 10

/-- The three chunking parameters of `FileChunker.__init__` (each either the
constructor argument or the corresponding config default). -/
structure FileChunker where
  max_tokens : Nat
  overlap_tokens : Nat
  min_tokens : Nat

/-! ## Python AST nodes

`ast.parse` is external library code; its result is passed in as data.  Only
the fields `chunker.py` reads are modelled: node kind, `name`, `lineno`,
`end_lineno`, the `lineno`s of `decorator_list`, and child statements
(through which `ast.walk` recurses). -/

inductive PyNode where
  | funcDef (isAsync : Bool) (name : Str) (lineno : Nat) (endLineno : Option Nat)
      (decoLines : List Nat) (body : List PyNode) : PyNode
  | classDef (name : Str) (lineno : Nat) (endLineno : Option Nat)
      (decoLines : List Nat) (body : List PyNode) : PyNode
  | stmt (body : List PyNode) : PyNode

/-- An `ast.Module`: the list of top-level statements. -/
structure PyModule where
  body : List PyNode

/-- `ast.iter_child_nodes`, restricted to children that can contain
function/class definitions (expression children never do). -/
def PyNode.children : PyNode → List PyNode
  | .funcDef _ _ _ _ _ b => b
  | .classDef _ _ _ _ b => b
  | .stmt b => b

mutual
/-- Number of AST nodes in the subtree rooted at a node. -/
def nodeWeight : PyNode → Nat
  | .funcDef _ _ _ _ _ b => 1 + bodyWeight b
  | .classDef _ _ _ _ b => 1 + bodyWeight b
  | .stmt b => 1 + bodyWeight b
/-- Number of AST nodes in a forest. -/
def bodyWeight : List PyNode → Nat
  | [] => 0
  | n :: rest => nodeWeight n + bodyWeight rest
end

/-- `ast.walk`: breadth-first traversal (a FIFO queue of pending nodes).
The `fuel` argument only bounds the recursion so that the function is
structural (and hence kernel-evaluable); each step pops one node and the
traversal pops every node exactly once, so `fuel = bodyWeight queue` (the
total node count) never runs out — `walkAux_fuel_eq` below makes this
precise. -/
def walkAux : Nat → List PyNode → List PyNode
  | 0, _ => []
  | _, [] => []
  | fuel + 1, n :: rest => n :: walkAux fuel (rest ++ n.children)

/-- `ast.walk(tree)` for a module (the `Module` node itself matches no
`isinstance` test in `_chunk_python`, so only its descendants matter). -/
def walk (t : PyModule) : List PyNode :=
  walkAux (bodyWeight t.body) t.body

theorem nodeWeight_pos (n : PyNode) : 1 ≤ nodeWeight n := by
  cases n <;> simp [nodeWeight]

theorem nodeWeight_children (n : PyNode) :
    nodeWeight n = 1 + bodyWeight n.children := by
  cases n <;> rfl

theorem bodyWeight_append (l₁ l₂ : List PyNode) :
    bodyWeight (l₁ ++ l₂) = bodyWeight l₁ + bodyWeight l₂ := by
  induction l₁ with
  | nil => simp [bodyWeight]
  | cons a t ih =>
    show nodeWeight a + bodyWeight (t ++ l₂) = nodeWeight a + bodyWeight t + bodyWeight l₂
    rw [ih]
    omega

/-- The fuel bound of `walkAux` is irrelevant as long as it is sufficient:
the traversal performs exactly `bodyWeight q` pops. -/
theorem walkAux_fuel_eq :
    ∀ (f₁ f₂ : Nat) (q : List PyNode), bodyWeight q ≤ f₁ → bodyWeight q ≤ f₂ →
      walkAux f₁ q = walkAux f₂ q := by
  intro f₁
  induction f₁ with
  | zero =>
    intro f₂ q h₁ h₂
    cases q with
    | nil => cases f₂ <;> rfl
    | cons n rest =>
      exfalso
      have hn := nodeWeight_pos n
      simp [bodyWeight] at h₁
      omega
  | succ g ih =>
    intro f₂ q h₁ h₂
    cases q with
    | nil => cases f₂ <;> rfl
    | cons n rest =>
      cases f₂ with
      | zero =>
        exfalso
        have hn := nodeWeight_pos n
        simp [bodyWeight] at h₂
        omega
      | succ h =>
        simp only [walkAux, List.cons.injEq, true_and]
        have hw : bodyWeight (n :: rest) = nodeWeight n + bodyWeight rest := rfl
        have hap := bodyWeight_append rest n.children
        have hch := nodeWeight_children n
        exact ih h (rest ++ n.children) (by omega) (by omega)

/-- `min(d.lineno for d in decorator_list)` with a default for the empty
case (unreachable: Python only evaluates it on a non-empty list). -/
def pyListMin (l : List Nat) (dflt : Nat) : Nat :=
  match l.min? with
  | some m => m
  | none => dflt

/-- The adjusted start line: `start = node.lineno`, then
`start = min(d.lineno for d in node.decorator_list)` if there are
decorators. -/
def defStart (lineno : Nat) (decos : List Nat) : Nat :=
  if decos.isEmpty then lineno else pyListMin decos lineno

/-- Python `lines[s-1:e]` for a 1-based inclusive line range `[s, e]`
(AST line numbers are at least 1). -/
def sliceLines (lines : List Str) (s e : Nat) : List Str :=
  (lines.drop (s - 1)).take (e - (s - 1))

/-- The exact text of the file's lines `s..e`. -/
def textOfRange (lines : List Str) (s e : Nat) : Str :=
  joinNl (sliceLines lines s e)

/-- The elided marker appended to truncated oversize-class chunks. -/
def classMarker : Str := "\n    # ... (class continues)".toList

/-- The function/class chunk built for one AST node in `_chunk_python`
(`none` for other nodes and for oversize functions, which are skipped). -/
def nodeChunk (fc : FileChunker) (lines : List Str) : PyNode → Option Chunk
  | .funcDef _ name lineno endL decos _ =>
    let e := endL.getD lineno
    let s := defStart lineno decos
    let txt := textOfRange lines s e
    if estimateTokens txt ≤ fc.max_tokens * 2 then
      some ⟨txt, "function".toList, some name, s, e, makePreview txt⟩
    else none
  | .classDef name lineno endL decos _ =>
    let e := endL.getD lineno
    let s := defStart lineno decos
    let txt := textOfRange lines s e
    if fc.max_tokens * 2 < estimateTokens txt then
      let pe := min (s + 30) e
      let txt2 := textOfRange lines s pe ++ classMarker
      some ⟨txt2, "class".toList, some name, s, pe, makePreview txt2⟩
    else
      some ⟨txt, "class".toList, some name, s, e, makePreview txt⟩
  | .stmt _ => none

/-- The lines one AST node adds to `covered_lines`
(`range(start, end + 1)`, with the truncated end for oversize classes). -/
def nodeCover (fc : FileChunker) (lines : List Str) : PyNode → List Nat
  | .funcDef _ _ lineno endL decos _ =>
    let e := endL.getD lineno
    let s := defStart lineno decos
    if estimateTokens (textOfRange lines s e) ≤ fc.max_tokens * 2 then
      List.range' s (e + 1 - s)
    else []
  | .classDef _ lineno endL decos _ =>
    let e := endL.getD lineno
    let s := defStart lineno decos
    let e2 := if fc.max_tokens * 2 < estimateTokens (textOfRange lines s e) then
      min (s + 30) e else e
    List.range' s (e2 + 1 - s)
  | .stmt _ => []

/-- `enumerate(lines, 1)`. -/
def enum1 (lines : List Str) : List (Nat × Str) :=
  lines.enum.map (fun p => (p.1 + 1, p.2))

/-- `current_group[-1][0]` with a default for the empty case. -/
def lastIdx (g : List (Nat × Str)) : Nat :=
  (g.getLast?.map Prod.fst).getD 0

/-- The grouping loop of `_chunk_python`: split the uncovered
`(line number, line)` pairs into maximal runs of consecutive line numbers. -/
def groupsAux : List (Nat × Str) → List (Nat × Str) → List (List (Nat × Str))
  | [], cur => if cur.isEmpty then [] else [cur]
  | p :: rest, cur =>
    if !cur.isEmpty && lastIdx cur + 1 < p.1 then
      cur :: groupsAux rest [p]
    else
      groupsAux rest (cur ++ [p])

/-- The `module` chunk built from one group of consecutive uncovered lines,
if its content reaches `min_tokens`. -/
def moduleChunk (fc : FileChunker) (g : List (Nat × Str)) : Option Chunk :=
  let content := joinNl (g.map Prod.snd)
  if fc.min_tokens ≤ estimateTokens content then
    some ⟨content, "module".toList, none, (g.head?.map Prod.fst).getD 0,
      lastIdx g, makePreview content⟩
  else none

/-- Stable insertion into a list sorted by `line_start` (an element goes
before later elements with an equal key). -/
def insertChunk (c : Chunk) : List Chunk → List Chunk
  | [] => [c]
  | d :: ds => if d.line_start < c.line_start then d :: insertChunk c ds else c :: d :: ds

/-- `chunks.sort(key=lambda c: c.line_start)`: Python's sort is stable, and
any stable sort by the same key produces the same list. -/
def sortByStart (l : List Chunk) : List Chunk :=
  l.foldr insertChunk []

/-- `FileChunker._chunk_python` on a successfully parsed file. -/
def chunkPython (fc : FileChunker) (content : Str) (t : PyModule) : List Chunk :=
  let lines := splitNl content
  let walkL := walk t
  let defChunks := walkL.filterMap (nodeChunk fc lines)
  let covered := (walkL.map (nodeCover fc lines)).flatten
  let moduleLines := (enum1 lines).filter (fun p => !covered.contains p.1)
  let moduleChunks := (groupsAux moduleLines []).filterMap (moduleChunk fc)
  sortByStart (defChunks ++ moduleChunks)

/-- The heading regex `^(#{1,6})\s+(.+)$` of `_chunk_markdown`: returns the
heading level and title on a match.  A match needs 1-6 leading `#`, then at
least one whitespace character, then at least one further character; the
greedy `\s+` leaves the title starting at the first non-whitespace character
when one exists, else backtracks to leave exactly the final character. -/
def mdHeading (line : Str) : Option (Nat × Str) :=
  let k := (line.takeWhile (fun c => c = '#')).length
  let rest := line.drop k
  if 1 ≤ k ∧ k ≤ 6 ∧ 2 ≤ rest.length ∧ rest.head?.any pySpace = true then
    let t := rest.dropWhile pySpace
    some (k, if t.isEmpty then rest.drop (rest.length - 1) else t)
  else none

/-- The `(index, level, title)` triples of all heading lines. -/
def mdHeadings (lines : List Str) : List (Nat × Nat × Str) :=
  lines.enum.filterMap (fun p => (mdHeading p.2).map (fun q => (p.1, q.1, q.2)))

/-- The end index of a section: the first later heading of equal or higher
level, else the default `len(lines)`. -/
def mdEnd (level : Nat) : List (Nat × Nat × Str) → Nat → Nat
  | [], dflt => dflt
  | (li, lv, _) :: t, dflt => if lv ≤ level then li else mdEnd level t dflt

/-- The section-building loop of `_chunk_markdown`. -/
def mdSections (lines : List Str) : List (Nat × Nat × Str) → List Chunk
  | [] => []
  | (li, lv, title) :: rest =>
    let endIdx := mdEnd lv rest lines.length
    let c := pyStrip (joinNl ((lines.drop li).take (endIdx - li)))
    (if c.isEmpty then [] else
      [⟨c, "section".toList, some title, li + 1, endIdx, makePreview c⟩]) ++
      mdSections lines rest

/-- The inner loop of `_chunk_sliding_window` that collects overlap lines
from the end of the just-saved chunk (`acc` receives them front-first from
the reversed chunk). -/
def overlapAux (overlapChars : Nat) : List Str → List Str → Nat → List Str × Nat
  | [], acc, size => (acc, size)
  | p :: rest, acc, size =>
    if overlapChars < size + p.length then (acc, size)
    else overlapAux overlapChars rest (p :: acc) (size + p.length + 1)

/-- The main loop of `_chunk_sliding_window`.  `total` is `len(lines)`,
`i` the 1-based number of the next line, `cur`/`curChars`/`startLine` the
`current_chunk`/`current_chars`/`chunk_start_line` state. -/
def swLoop (maxChars overlapChars total : Nat) :
    List Str → Nat → List Str → Nat → Nat → List Chunk
  | [], _, cur, _, startLine =>
    if cur.isEmpty then []
    else
      let t := joinNl cur
      [⟨t, "window".toList, none, startLine, total, makePreview t⟩]
  | line :: rest, i, cur, curChars, startLine =>
    let lineChars := line.length + 1
    if maxChars < curChars + lineChars ∧ ¬cur.isEmpty then
      let t := joinNl cur
      let ov := overlapAux overlapChars cur.reverse [] 0
      ⟨t, "window".toList, none, startLine, i - 1, makePreview t⟩ ::
        swLoop maxChars overlapChars total rest (i + 1) (ov.1 ++ [line])
          (ov.2 + lineChars) (i - ov.1.length)
    else
      swLoop maxChars overlapChars total rest (i + 1) (cur ++ [line])
        (curChars + lineChars) startLine

/-- `FileChunker._chunk_sliding_window`. -/
def slidingWindow (fc : FileChunker) (content : Str) : List Chunk :=
  let lines := splitNl content
  let totalTokens := estimateTokens content
  if totalTokens = 0 then []
  else
    let maxChars := fc.max_tokens * content.length / totalTokens
    let overlapChars := fc.overlap_tokens * content.length / totalTokens
    swLoop maxChars overlapChars lines.length lines 1 [] 0 1

/-- `FileChunker._chunk_markdown`. -/
def chunkMarkdown (fc : FileChunker) (content : Str) : List Chunk :=
  let lines := splitNl content
  let hs := mdHeadings lines
  if hs.isEmpty then slidingWindow fc content else mdSections lines hs

/-- `FileChunker._chunk_structured` (currently just the sliding window). -/
def chunkStructured (fc : FileChunker) (content : Str) : List Chunk :=
  slidingWindow fc content

/-- Strategy dispatch of `chunk_file` on `path.suffix.lower()`.  For `.py`
files the `ast.parse` outcome is the `parsed` argument (`none` models a
`SyntaxError`, which falls back to the sliding window). -/
def rawChunks (fc : FileChunker) (suffix content : Str) (parsed : Option PyModule) :
    List Chunk :=
  let sfx := suffix.map Char.toLower
  if sfx = ".py".toList then
    match parsed with
    | some t => chunkPython fc content t
    | none => slidingWindow fc content
  else if sfx = ".md".toList then chunkMarkdown fc content
  else if sfx = ".json".toList ∨ sfx = ".yaml".toList ∨ sfx = ".yml".toList then
    chunkStructured fc content
  else slidingWindow fc content

/-- The fallback whole-file chunk (`line_end = content.count("\n") + 1`). -/
def wholeFileChunk (content : Str) : Chunk :=
  ⟨content, "whole_file".toList, none, 1, content.count '\n' + 1, makePreview content⟩

/-- `FileChunker.chunk_file` with pre-read content: run the strategy, filter
out chunks below `min_tokens`, and fall back to a single whole-file chunk. -/
def chunkFile (fc : FileChunker) (suffix content : Str) (parsed : Option PyModule) :
    List Chunk :=
  let cs := (rawChunks fc suffix content parsed).filter
    (fun c => fc.min_tokens ≤ estimateTokens c.content)
  if cs.isEmpty then [wholeFileChunk content] else cs

/-- `chunk_file` with `content=None`: the chunker reads the file itself and
returns `[]` when the read raises. -/
def chunkFileRead (fc : FileChunker) (suffix : Str) (readResult : Option Str)
    (parsed : Option PyModule) : List Chunk :=
  match readResult with
  | none => []
  | some content => chunkFile fc suffix content parsed

/-! ## The gateway `file_preview` tool (`gateway.py`) -/

/-- Python list slicing `xs[i:j]` with arbitrary (possibly negative) ints. -/
def pySlice {α : Type} (xs : List α) (i j : Int) : List α :=
  let n : Int := xs.length
  let a := (if i < 0 then max (n + i) 0 else min i n).toNat
  let b := (if j < 0 then max (n + j) 0 else min j n).toNat
  (xs.drop a).take (b - a)

/-- The result dictionary of `file_preview`. -/
inductive PreviewResult where
  | err (msg : Str) : PreviewResult
  | ok (path : Str) (linesField : Str) (content : Str) (totalLines : Nat) : PreviewResult
deriving DecidableEq, Repr

/-- Decimal digits of a natural number. -/
def natStr (n : Nat) : Str := (Nat.repr n).toList

/-- `f"{n:4d} | {line}"`: the number right-aligned in width 4. -/
def fmtLine (n : Nat) (line : Str) : Str :=
  (if (natStr n).length < 4 then List.replicate (4 - (natStr n).length) ' ' else []) ++
    natStr n ++ " | ".toList ++ line

/-- The selected lines and the 1-based `line_offset` of `file_preview`:
`start_idx = max(0, line_start - 1)`, `end_idx = line_end if line_end else
len(lines)`, `lines[start_idx:end_idx]`. -/
def previewSel (content : Str) (lineStart lineEnd : Option Int) : List Str × Nat :=
  let lines := splitNl content
  match lineStart with
  | some ls =>
    let startIdx : Int := max 0 (ls - 1)
    let endIdx : Int :=
      match lineEnd with
      | some le => if le = 0 then (lines.length : Int) else le
      | none => (lines.length : Int)
    (pySlice lines startIdx endIdx, startIdx.toNat + 1)
  | none => (lines, 1)

/-- The numbered lines: `f"{line_offset + i:4d} | {line}"` for the first 100
selected lines. -/
def previewNumbered (content : Str) (lineStart lineEnd : Option Int) : List Str :=
  let p := previewSel content lineStart lineEnd
  (p.1.take 100).enum.map (fun q => fmtLine (p.2 + q.1) q.2)

/-- `f"\n... ({n} more lines)"`. -/
def moreMarker (n : Nat) : Str :=
  "\n... (".toList ++ natStr n ++ " more lines)".toList

/-- The `content` field: the joined numbered lines, plus the elision marker
iff more than 100 lines were selected. -/
def previewContent (content : Str) (lineStart lineEnd : Option Int) : Str :=
  let sel := (previewSel content lineStart lineEnd).1
  joinNl (previewNumbered content lineStart lineEnd) ++
    (if 100 < sel.length then moreMarker (sel.length - 100) else [])

/-- The `lines` field: `f"{line_offset}-{line_offset + len(numbered_lines) - 1}"`. -/
def previewLinesField (content : Str) (lineStart lineEnd : Option Int) : Str :=
  let off := (previewSel content lineStart lineEnd).2
  natStr off ++ "-".toList ++ natStr (off + (previewNumbered content lineStart lineEnd).length - 1)

/-- The `file_preview` tool of `gateway.py`, for a path whose existence and
(successfully read) content are given.  The function performs no path-safety
check against configured roots and no validation of the line arguments: any
existing readable path yields an `ok` result. -/
def filePreview (path : Str) (fileExists : Bool) (content : Str)
    (lineStart lineEnd : Option Int) : PreviewResult :=
  if fileExists then
    .ok path (previewLinesField content lineStart lineEnd)
      (previewContent content lineStart lineEnd) (splitNl content).length
  else
    .err ("File not found: ".toList ++ path)

/-! ## Specification-side definitions (used to state claims, not taken from
the source) -/

/-- `round(w * 1.3)` as the spec words it: round-half-to-even on the exact
rational `13w/10` (Python's `round`). -/
def specRoundTokens (w : Nat) : Nat :=
  let p := 13 * w
  let q := p / 10
  let r := p % 10
  if r < 5 then q else if 5 < r then q + 1 else if q % 2 = 0 then q else q + 1

/-- The spec's preview: first 200 characters with only *trailing* whitespace
stripped, plus `"..."` iff the content exceeds 200 characters. -/
def specPreview (content : Str) : Str :=
  let p := pyRStrip (content.take 200)
  if 200 < content.length then p ++ "...".toList else p

/-- AST sanity of one node: line numbers within the file, `end_lineno` at or
after `lineno`, decorators at or above the definition line.  Every tree
produced by CPython's `ast.parse` on the file satisfies this. -/
def nodeWf (total : Nat) : PyNode → Bool
  | .funcDef _ _ lineno endL decos _ =>
    1 ≤ lineno && lineno ≤ endL.getD lineno && endL.getD lineno ≤ total &&
      decos.all (fun d => 1 ≤ d && d ≤ lineno)
  | .classDef _ lineno endL decos _ =>
    1 ≤ lineno && lineno ≤ endL.getD lineno && endL.getD lineno ≤ total &&
      decos.all (fun d => 1 ≤ d && d ≤ lineno)
  | .stmt _ => true

/-- AST sanity of a parse result for a file with `total` lines. -/
def wfParsed (total : Nat) : Option PyModule → Bool
  | none => true
  | some t => (walk t).all (nodeWf total)

/-! ## Basic facts about the string model -/

theorem splitNl_ne_nil (s : Str) : splitNl s ≠ [] := by
  match s with
  | [] => simp [splitNl]
  | c :: rest =>
    simp only [splitNl]
    split
    · simp
    · match h : splitNl rest with
      | [] => simp
      | h₁ :: t => simp

theorem joinNl_splitNl (s : Str) : joinNl (splitNl s) = s := by
  induction s with
  | nil => rfl
  | cons c rest ih =>
    simp only [splitNl]
    split
    · rename_i hc
      subst hc
      match h : splitNl rest with
      | [] => exact absurd h (splitNl_ne_nil rest)
      | h₁ :: t =>
        rw [h] at ih
        cases t with
        | nil => simpa [joinNl] using ih
        | cons t₁ ts => simpa [joinNl] using ih
    · match h : splitNl rest with
      | [] => exact absurd h (splitNl_ne_nil rest)
      | h₁ :: t =>
        rw [h] at ih
        cases t with
        | nil => simpa [joinNl] using ih
        | cons t₁ ts => simpa [joinNl] using ih

theorem splitNl_length (s : Str) : (splitNl s).length = s.count '\n' + 1 := by
  induction s with
  | nil => rfl
  | cons c rest ih =>
    simp only [splitNl]
    split
    · rename_i hc
      simp [List.count_cons, hc, ih]
    · rename_i hc
      match h : splitNl rest with
      | [] => exact absurd h (splitNl_ne_nil rest)
      | h₁ :: t =>
        rw [h] at ih
        simp only [List.count_cons]
        simp only [List.length_cons] at ih ⊢
        have : (c == '\n') = false := by
          simp only [beq_eq_false_iff_ne, ne_eq]
          exact hc
        simp [this, ih]

theorem one_le_splitNl_length (s : Str) : 1 ≤ (splitNl s).length := by
  have := splitNl_ne_nil s
  cases h : splitNl s with
  | nil => exact absurd h this
  | cons a t => simp

theorem textOfRange_full (s : Str) :
    textOfRange (splitNl s) 1 (splitNl s).length = s := by
  unfold textOfRange sliceLines
  simp only [Nat.sub_self, List.drop_zero]
  rw [List.take_of_length_le (by omega)]
  exact joinNl_splitNl s

theorem pyRStrip_front (y : Str) : pyRStrip y <+: y := by
  have h := List.reverse_prefix.mpr (List.dropWhile_suffix (l := y.reverse) pySpace)
  simpa [pyRStrip] using h

theorem pyStrip_within (y : Str) : pyStrip y <:+: y := by
  unfold pyStrip
  exact List.IsInfix.trans (pyRStrip_front _).isInfix (List.dropWhile_suffix pySpace).isInfix

theorem makePreview_core_within (content : Str) :
    pyStrip (content.take 200) <:+: content := by
  exact List.IsInfix.trans (pyStrip_within _) (List.take_prefix 200 content).isInfix

/-! ## Property bundles proved for every chunk -/

/-- The preview of a chunk is `_make_preview` of its own content. -/
def PrevOk (c : Chunk) : Prop := c.preview = makePreview c.content

/-- The line-range invariant of the specification. -/
def BoundsOk (total : Nat) (c : Chunk) : Prop :=
  1 ≤ c.line_start ∧ c.line_start ≤ c.line_end ∧ c.line_end ≤ total

/-- Content exactness: the chunk's content is the exact text of its line
range, except that `section` chunks are `strip`ped and truncated oversize
`class` chunks carry the appended elided marker. -/
def ExactOk (lines : List Str) (c : Chunk) : Prop :=
  c.content = textOfRange lines c.line_start c.line_end ∨
  (c.chunk_type = "section".toList ∧
    c.content = pyStrip (textOfRange lines c.line_start c.line_end)) ∨
  (c.chunk_type = "class".toList ∧
    c.content = textOfRange lines c.line_start c.line_end ++ classMarker)

/-! ## Sliding-window invariants -/

/-- What holds of every chunk the sliding window emits. -/
def WinOk (lines : List Str) (c : Chunk) : Prop :=
  PrevOk c ∧ BoundsOk lines.length c ∧
    c.content = textOfRange lines c.line_start c.line_end ∧
    c.chunk_type = "window".toList

theorem overlapAux_shape (oc : Nat) (rl : List Str) :
    ∀ (acc : List Str) (size : Nat),
      ∃ k, k ≤ rl.length ∧ (overlapAux oc rl acc size).1 = (rl.take k).reverse ++ acc := by
  induction rl with
  | nil =>
    intro acc size
    exact ⟨0, by simp, by simp [overlapAux]⟩
  | cons p rest ih =>
    intro acc size
    simp only [overlapAux]
    split
    · exact ⟨0, by simp, by simp⟩
    · obtain ⟨k, hk, he⟩ := ih (p :: acc) (size + p.length + 1)
      refine ⟨k + 1, by simpa using Nat.succ_le_succ hk, ?_⟩
      simpa [List.append_assoc] using he

theorem overlapAux_drop (oc : Nat) (cur : List Str) :
    ∃ k, k ≤ cur.length ∧ (overlapAux oc cur.reverse [] 0).1 = cur.drop (cur.length - k) := by
  obtain ⟨k, hk, he⟩ := overlapAux_shape oc cur.reverse [] 0
  refine ⟨k, by simpa using hk, ?_⟩
  rw [he, List.append_nil, List.reverse_take]
  simp

theorem take_append_head {α : Type} (l : List α) (n : Nat) (a : α) (t : List α)
    (h : l.drop n = a :: t) : l.take n ++ [a] = l.take (n + 1) := by
  have hn : n < l.length := by
    by_contra hc
    rw [List.drop_eq_nil_of_le (by omega)] at h
    exact List.noConfusion h
  have ha : l[n] = a := by
    have h0 : (l.drop n)[0]? = some a := by rw [h]; simp
    rw [List.getElem?_drop, Nat.add_zero, List.getElem?_eq_getElem hn] at h0
    exact Option.some.inj h0
  rw [← List.take_concat_get l n hn, ha, List.concat_eq_append]

theorem swLoop_props (maxChars overlapChars : Nat) (lines : List Str) :
    ∀ (rem : List Str) (i : Nat) (cur : List Str) (cc sl : Nat),
      1 ≤ sl →
      sl + cur.length = i →
      cur = (lines.drop (sl - 1)).take (i - sl) →
      rem = lines.drop (i - 1) →
      ∀ c ∈ swLoop maxChars overlapChars lines.length rem i cur cc sl, WinOk lines c := by
  intro rem
  induction rem with
  | nil =>
    intro i cur cc sl h1 h2 h3 h4 c hc
    simp only [swLoop] at hc
    split at hc
    · simp at hc
    · rename_i hne
      have hcur : cur ≠ [] := by simpa using hne
      have hL : lines.length ≤ i - 1 := by
        have := congrArg List.length h4
        simp [List.length_drop] at this
        omega
      have hlen : 1 ≤ cur.length := List.length_pos.mpr hcur
      have hslL : sl - 1 < lines.length := by
        by_contra hcon
        rw [h3, List.drop_eq_nil_of_le (by omega)] at hcur
        simp at hcur
      simp only [List.mem_singleton] at hc
      subst hc
      refine ⟨rfl, ⟨h1, show sl ≤ lines.length by omega, le_refl _⟩, ?_, rfl⟩
      show joinNl cur = textOfRange lines sl lines.length
      simp only [textOfRange, sliceLines]
      have hdl : (lines.drop (sl - 1)).length = lines.length - (sl - 1) :=
        List.length_drop _ _
      rw [h3]
      rw [List.take_of_length_le (by omega), List.take_of_length_le (by omega)]
  | cons line rest ih =>
    intro i cur cc sl h1 h2 h3 h4 c hc
    have hlt : i - 1 < lines.length := by
      by_contra hcon
      rw [List.drop_eq_nil_of_le (by omega)] at h4
      exact List.noConfusion h4
    have hsl_le : sl ≤ i := by omega
    have hdc : (lines.drop (sl - 1)).drop (i - sl) = line :: rest := by
      rw [List.drop_drop]
      have : (sl - 1) + (i - sl) = i - 1 := by omega
      rw [this]
      exact h4.symm
    have hext : cur ++ [line] = (lines.drop (sl - 1)).take (i - sl + 1) := by
      rw [h3]
      exact take_append_head _ _ _ _ hdc
    have hrest : rest = lines.drop i := by
      have ht : (lines.drop (i - 1)).tail = lines.drop (i - 1 + 1) := List.tail_drop _ _
      rw [← h4] at ht
      have : i - 1 + 1 = i := by omega
      rw [this] at ht
      simpa using ht
    simp only [swLoop] at hc
    split at hc
    · rename_i hcond
      have hcur : cur ≠ [] := by
        rcases hcond with ⟨-, h⟩
        simpa using h
      have hlen1 : 1 ≤ cur.length := List.length_pos.mpr hcur
      simp only [List.mem_cons] at hc
      rcases hc with hc | hc
      · -- the chunk saved at this step
        subst hc
        refine ⟨rfl, ⟨h1, show sl ≤ i - 1 by omega, show i - 1 ≤ lines.length by omega⟩,
          ?_, rfl⟩
        show joinNl cur = textOfRange lines sl (i - 1)
        simp only [textOfRange, sliceLines]
        have : (i - 1) - (sl - 1) = i - sl := by omega
        rw [this, h3]
      · -- chunks from the recursive call
        obtain ⟨k, hk, hov⟩ := overlapAux_drop overlapChars cur
        have hclen : cur.length = i - sl := by omega
        have hovlen : (overlapAux overlapChars cur.reverse [] 0).1.length = k := by
          rw [hov, List.length_drop]
          omega
        have hsplit : (overlapAux overlapChars cur.reverse [] 0).1 =
            (lines.drop (i - k - 1)).take k := by
          rw [hov, hclen, h3, List.drop_take, List.drop_drop]
          have e1 : (i - sl) - (i - sl - k) = k := by omega
          have e2 : (sl - 1) + (i - sl - k) = i - k - 1 := by omega
          rw [e1, e2]
        have hdk : (lines.drop (i - k - 1)).drop k = line :: rest := by
          rw [List.drop_drop]
          have : (i - k - 1) + k = i - 1 := by omega
          rw [this]
          exact h4.symm
        refine ih (i + 1) _ _ (i - (overlapAux overlapChars cur.reverse [] 0).1.length)
          ?_ ?_ ?_ ?_ c hc
        · rw [hovlen]; omega
        · rw [hovlen]
          simp only [List.length_append, List.length_cons, List.length_nil]
          rw [hovlen]
          omega
        · rw [hovlen, hsplit]
          rw [take_append_head (lines.drop (i - k - 1)) k line rest hdk]
          have e3 : i + 1 - (i - k) = k + 1 := by omega
          have e4 : (i - k) - 1 = i - k - 1 := by omega
          rw [e3, e4]
        · have : i + 1 - 1 = i := by omega
          rw [this]
          exact hrest
    · refine ih (i + 1) (cur ++ [line]) (cc + (line.length + 1)) sl h1 ?_ ?_ ?_ c hc
      · simp only [List.length_append, List.length_cons, List.length_nil]
        omega
      · rw [hext]
        have : i + 1 - sl = i - sl + 1 := by omega
        rw [this]
      · have : i + 1 - 1 = i := by omega
        rw [this]
        exact hrest

theorem slidingWindow_props (fc : FileChunker) (content : Str) :
    ∀ c ∈ slidingWindow fc content, WinOk (splitNl content) c := by
  intro c hc
  simp only [slidingWindow] at hc
  split at hc
  · simp at hc
  · exact swLoop_props _ _ (splitNl content) (splitNl content) 1 [] 0 1
      (le_refl 1) rfl (by simp) (by simp) c hc

/-! ## Markdown invariants -/

theorem mdEnd_cases (lv : Nat) (rest : List (Nat × Nat × Str)) (dflt : Nat) :
    mdEnd lv rest dflt = dflt ∨ ∃ p ∈ rest, mdEnd lv rest dflt = p.1 := by
  induction rest with
  | nil => exact Or.inl rfl
  | cons q t ih =>
    simp only [mdEnd]
    split
    · exact Or.inr ⟨q, List.mem_cons_self _ _, rfl⟩
    · rcases ih with h | ⟨p, hp, he⟩
      · exact Or.inl h
      · exact Or.inr ⟨p, List.mem_cons_of_mem _ hp, he⟩

theorem pairwise_fst_lt_enumFrom {α : Type} (l : List α) :
    ∀ n, List.Pairwise (fun a b => a.1 < b.1) (l.enumFrom n) := by
  induction l with
  | nil => intro n; simp
  | cons a t ih =>
    intro n
    rw [List.enumFrom_cons]
    refine List.pairwise_cons.mpr ⟨?_, ih (n + 1)⟩
    intro p hp
    rcases p with ⟨j, x⟩
    have h1 := (List.mem_enumFrom hp).1
    show n < j
    omega

theorem pairwise_fst_lt_enum {α : Type} (l : List α) :
    List.Pairwise (fun a b => a.1 < b.1) l.enum :=
  pairwise_fst_lt_enumFrom l 0

theorem mdHeadings_pairwise (lines : List Str) :
    List.Pairwise (fun a b => a.1 < b.1) (mdHeadings lines) := by
  unfold mdHeadings
  refine List.Pairwise.filterMap _ ?_ (pairwise_fst_lt_enum lines)
  intro a a' hlt b hb b' hb'
  cases hma : mdHeading a.2 with
  | none => rw [hma] at hb; simp at hb
  | some q =>
    cases hma' : mdHeading a'.2 with
    | none => rw [hma'] at hb'; simp at hb'
    | some q' =>
      rw [hma] at hb
      rw [hma'] at hb'
      have hb2 : (a.1, q.1, q.2) = b := by simpa using hb
      have hb2' : (a'.1, q'.1, q'.2) = b' := by simpa using hb'
      subst hb2
      subst hb2'
      simpa using hlt

theorem mdHeadings_mem_lt (lines : List Str) :
    ∀ p ∈ mdHeadings lines, p.1 < lines.length := by
  intro p hp
  unfold mdHeadings at hp
  rcases List.mem_filterMap.mp hp with ⟨a, ha, he⟩
  cases hma : mdHeading a.2 with
  | none => rw [hma] at he; simp at he
  | some q =>
    rw [hma] at he
    have he2 : (a.1, q.1, q.2) = p := by simpa using he
    have h1 : lines[a.1]? = some a.2 := List.mem_enum_iff_getElem?.mp ha
    have h2 : a.1 < lines.length := by
      by_contra hc
      rw [List.getElem?_eq_none (by omega)] at h1
      exact Option.noConfusion h1
    rw [← he2]
    exact h2

theorem mdSections_props (lines : List Str) :
    ∀ (hs : List (Nat × Nat × Str)),
      (∀ p ∈ hs, p.1 < lines.length) →
      List.Pairwise (fun a b => a.1 < b.1) hs →
      ∀ c ∈ mdSections lines hs,
        PrevOk c ∧ BoundsOk lines.length c ∧ c.chunk_type = "section".toList ∧
          c.content = pyStrip (textOfRange lines c.line_start c.line_end) := by
  intro hs
  induction hs with
  | nil => intro _ _ c hc; simp [mdSections] at hc
  | cons h rest ih =>
    rcases h with ⟨li, lv, title⟩
    intro hb hp c hc
    simp only [mdSections, List.mem_append] at hc
    have hli : li < lines.length := hb _ (List.mem_cons_self _ _)
    have hend_lt : li < mdEnd lv rest lines.length ∧
        mdEnd lv rest lines.length ≤ lines.length := by
      rcases mdEnd_cases lv rest lines.length with he | ⟨p, hpm, he⟩
      · rw [he]; exact ⟨hli, le_refl _⟩
      · rw [he]
        have h1 := (List.pairwise_cons.mp hp).1 p hpm
        have h2 := hb p (List.mem_cons_of_mem _ hpm)
        exact ⟨h1, le_of_lt h2⟩
    rcases hc with hc | hc
    · split at hc
      · simp at hc
      · simp only [List.mem_singleton] at hc
        subst hc
        refine ⟨rfl, ⟨show 1 ≤ li + 1 by omega,
          show li + 1 ≤ mdEnd lv rest lines.length by omega, hend_lt.2⟩, rfl, ?_⟩
        show pyStrip (joinNl ((lines.drop li).take (mdEnd lv rest lines.length - li))) =
          pyStrip (textOfRange lines (li + 1) (mdEnd lv rest lines.length))
        simp [textOfRange, sliceLines]
    · exact ih (fun p hpm => hb p (List.mem_cons_of_mem _ hpm))
        (List.pairwise_cons.mp hp).2 c hc

theorem chunkMarkdown_props (fc : FileChunker) (content : Str) :
    ∀ c ∈ chunkMarkdown fc content,
      PrevOk c ∧ BoundsOk (splitNl content).length c ∧ ExactOk (splitNl content) c := by
  intro c hc
  simp only [chunkMarkdown] at hc
  split at hc
  · obtain ⟨h1, h2, h3, -⟩ := slidingWindow_props fc content c hc
    exact ⟨h1, h2, Or.inl h3⟩
  · obtain ⟨h1, h2, h3, h4⟩ := mdSections_props (splitNl content) (mdHeadings (splitNl content))
      (mdHeadings_mem_lt _) (mdHeadings_pairwise _) c hc
    exact ⟨h1, h2, Or.inr (Or.inl ⟨h3, h4⟩)⟩

/-! ## Python AST invariants: consecutive uncovered-line runs -/

theorem getLast?_mem_self {α : Type} {l : List α} {a : α} (h : l.getLast? = some a) :
    a ∈ l := by
  rcases List.mem_getLast?_eq_getLast (l := l) (x := a) (Option.mem_def.mpr h) with ⟨hne, he⟩
  rw [he]
  exact List.getLast_mem hne

/-- A wellformed pair of the uncovered-line list: a real 1-based line number
with the actual text of that line. -/
def GoodPair (lines : List Str) (p : Nat × Str) : Prop :=
  1 ≤ p.1 ∧ p.1 ≤ lines.length ∧ lines[p.1 - 1]? = some p.2

/-- `g` carries the consecutive line numbers `a, a+1, ...`. -/
def RunFrom (a : Nat) (g : List (Nat × Str)) : Prop :=
  g.map Prod.fst = List.range' a g.length

theorem range'_snoc (a n : Nat) : List.range' a (n + 1) = List.range' a n ++ [a + n] := by
  simpa using @List.range'_concat 1 a n

theorem isEmpty_false_ne_nil {α : Type} {l : List α} (h : l.isEmpty = false) : l ≠ [] := by
  cases l
  · simp at h
  · simp

theorem runFrom_single (p : Nat × Str) : RunFrom p.1 [p] := rfl

theorem runFrom_head {a : Nat} {g : List (Nat × Str)} (hne : g ≠ []) (hr : RunFrom a g) :
    (g.head?.map Prod.fst).getD 0 = a := by
  cases g with
  | nil => exact absurd rfl hne
  | cons p t =>
    simp only [RunFrom, List.map_cons, List.length_cons] at hr
    rw [List.range'] at hr
    simp only [List.cons.injEq] at hr
    simp [hr.1]

theorem runFrom_last {a : Nat} {g : List (Nat × Str)} (hne : g ≠ []) (hr : RunFrom a g) :
    lastIdx g = a + g.length - 1 := by
  have hlen : 1 ≤ g.length := List.length_pos.mpr hne
  have h1 : (g.map Prod.fst).getLast? = some (a + (g.length - 1)) := by
    rw [hr]
    have : g.length = (g.length - 1) + 1 := by omega
    rw [this, range'_snoc]
    exact List.getLast?_concat _
  rw [List.getLast?_map] at h1
  unfold lastIdx
  cases hg : g.getLast? with
  | none => rw [hg] at h1; simp at h1
  | some q =>
    rw [hg] at h1
    simp only [Option.map_some'] at h1
    have : q.1 = a + (g.length - 1) := by
      have := Option.some.inj h1
      simpa using this
    simp [this]
    omega

theorem runFrom_extend {a : Nat} {g : List (Nat × Str)} (p : Nat × Str)
    (hr : RunFrom a g) (hp : p.1 = a + g.length) : RunFrom a (g ++ [p]) := by
  simp only [RunFrom, List.map_append, List.length_append, List.map_cons, List.map_nil,
    List.length_cons, List.length_nil]
  rw [hr, hp]
  have : g.length + (0 + 1) = g.length + 1 := by omega
  rw [this, range'_snoc]

/-- The lines of a consecutive wellformed run are exactly the file slice. -/
theorem run_snd_slice (lines : List Str) :
    ∀ (g : List (Nat × Str)) (a : Nat), 1 ≤ a → RunFrom a g →
      (∀ p ∈ g, lines[p.1 - 1]? = some p.2) →
      g.map Prod.snd = (lines.drop (a - 1)).take g.length := by
  intro g
  induction g with
  | nil => intro a _ _ _; simp
  | cons p t ih =>
    intro a ha hr hg
    simp only [RunFrom, List.map_cons, List.length_cons] at hr
    rw [List.range'] at hr
    simp only [List.cons.injEq] at hr
    have hpa : p.1 = a := hr.1
    have hrt : RunFrom (a + 1) t := hr.2
    have hpg : lines[a - 1]? = some p.2 := by
      have := hg p (List.mem_cons_self _ _)
      rwa [hpa] at this
    have hlt : a - 1 < lines.length := by
      by_contra hc
      rw [List.getElem?_eq_none (by omega)] at hpg
      exact Option.noConfusion hpg
    have hdrop : lines.drop (a - 1) = lines[a - 1] :: lines.drop a := by
      have := List.drop_eq_getElem_cons hlt
      have e : (a - 1) + 1 = a := by omega
      rwa [e] at this
    have hget : lines[a - 1] = p.2 := by
      have := List.getElem?_eq_getElem hlt
      rw [this] at hpg
      exact Option.some.inj hpg
    have iht := ih (a + 1) (by omega) hrt (fun q hq => hg q (List.mem_cons_of_mem _ hq))
    simp only [List.map_cons, List.length_cons]
    rw [hdrop, hget, List.take_succ_cons]
    have e2 : (a + 1) - 1 = a := by omega
    rw [iht, e2]

theorem groupsAux_spec (lines : List Str) :
    ∀ (ps cur : List (Nat × Str)) (a : Nat),
      List.Pairwise (fun x y => x.1 < y.1) ps →
      (∀ p ∈ ps, GoodPair lines p) →
      (∀ p ∈ cur, GoodPair lines p) →
      RunFrom a cur →
      (cur ≠ [] → ∀ q ∈ ps, lastIdx cur < q.1) →
      ∀ g ∈ groupsAux ps cur,
        g ≠ [] ∧ (∃ b, RunFrom b g) ∧ (∀ p ∈ g, GoodPair lines p) := by
  intro ps
  induction ps with
  | nil =>
    intro cur a hpw hgp hgc hr hlast g hg
    simp only [groupsAux] at hg
    split at hg
    · simp at hg
    · rename_i hne
      simp only [List.mem_singleton] at hg
      subst hg
      exact ⟨by simpa using hne, ⟨a, hr⟩, hgc⟩
  | cons p rest ih =>
    intro cur a hpw hgp hgc hr hlast g hg
    have hpw' := List.pairwise_cons.mp hpw
    simp only [groupsAux] at hg
    split at hg
    · rename_i hcond
      simp only [Bool.and_eq_true, Bool.not_eq_true', decide_eq_true_eq] at hcond
      simp only [List.mem_cons] at hg
      rcases hg with hg | hg
      · subst hg
        exact ⟨isEmpty_false_ne_nil hcond.1, ⟨a, hr⟩, hgc⟩
      · refine ih [p] p.1 hpw'.2 (fun q hq => hgp q (List.mem_cons_of_mem _ hq))
          ?_ (runFrom_single p) ?_ g hg
        · intro q hq
          simp only [List.mem_singleton] at hq
          rw [hq]
          exact hgp p (List.mem_cons_self _ _)
        · intro _ q hq
          have hl : lastIdx [p] = p.1 := by simp [lastIdx]
          rw [hl]
          exact hpw'.1 q hq
    · rename_i hcond
      have hnogap : cur ≠ [] → p.1 ≤ lastIdx cur + 1 := by
        intro hne
        by_contra hgt
        apply hcond
        simp only [Bool.and_eq_true, Bool.not_eq_true', decide_eq_true_eq]
        refine ⟨?_, by omega⟩
        cases hce : cur
        · exact absurd hce hne
        · simp
      have hcur' : ∃ b, RunFrom b (cur ++ [p]) := by
        by_cases hne : cur = []
        · subst hne
          exact ⟨p.1, by simpa using runFrom_single p⟩
        · have h1 := hlast hne p (List.mem_cons_self _ _)
          have h2 := hnogap hne
          have h3 : p.1 = lastIdx cur + 1 := by omega
          have h4 := runFrom_last hne hr
          have hlen : 1 ≤ cur.length := List.length_pos.mpr hne
          exact ⟨a, runFrom_extend p hr (by omega)⟩
      rcases hcur' with ⟨b, hb⟩
      refine ih (cur ++ [p]) b hpw'.2 (fun q hq => hgp q (List.mem_cons_of_mem _ hq))
        ?_ hb ?_ g hg
      · intro q hq
        rcases List.mem_append.mp hq with hq | hq
        · exact hgc q hq
        · simp only [List.mem_singleton] at hq
          subst hq
          exact hgp q (List.mem_cons_self _ _)
      · intro _ q hq
        have : lastIdx (cur ++ [p]) = p.1 := by
          unfold lastIdx
          rw [List.getLast?_concat]
          rfl
        rw [this]
        exact hpw'.1 q hq

theorem groupsAux_subset :
    ∀ (ps cur : List (Nat × Str)) (g : List (Nat × Str)), g ∈ groupsAux ps cur →
      ∀ p ∈ g, p ∈ cur ∨ p ∈ ps := by
  intro ps
  induction ps with
  | nil =>
    intro cur g hg p hp
    simp only [groupsAux] at hg
    split at hg
    · simp at hg
    · simp only [List.mem_singleton] at hg
      subst hg
      exact Or.inl hp
  | cons q rest ih =>
    intro cur g hg p hp
    simp only [groupsAux] at hg
    split at hg
    · simp only [List.mem_cons] at hg
      rcases hg with hg | hg
      · subst hg
        exact Or.inl hp
      · rcases ih [q] g hg p hp with h | h
        · simp only [List.mem_singleton] at h
          rw [h]
          exact Or.inr (List.mem_cons_self _ _)
        · exact Or.inr (List.mem_cons_of_mem _ h)
    · rcases ih (cur ++ [q]) g hg p hp with h | h
      · rcases List.mem_append.mp h with h | h
        · exact Or.inl h
        · simp only [List.mem_singleton] at h
          rw [h]
          exact Or.inr (List.mem_cons_self _ _)
      · exact Or.inr (List.mem_cons_of_mem _ h)

/-! ## Python AST invariants: definition chunks and the whole strategy -/

theorem defStart_bounds (lineno : Nat) (decos : List Nat) (h1 : 1 ≤ lineno)
    (hd : ∀ d ∈ decos, 1 ≤ d ∧ d ≤ lineno) :
    1 ≤ defStart lineno decos ∧ defStart lineno decos ≤ lineno := by
  unfold defStart
  split
  · exact ⟨h1, le_refl _⟩
  · unfold pyListMin
    cases hm : decos.min? with
    | none => exact ⟨h1, le_refl _⟩
    | some m =>
      have hmem := List.min?_mem (fun a b => min_choice a b) hm
      exact ⟨(hd m hmem).1, (hd m hmem).2⟩

theorem nodeChunk_props (fc : FileChunker) (lines : List Str) (n : PyNode)
    (hwf : nodeWf lines.length n = true) {c : Chunk}
    (hc : nodeChunk fc lines n = some c) :
    PrevOk c ∧ BoundsOk lines.length c ∧ ExactOk lines c := by
  cases n with
  | stmt b => simp [nodeChunk] at hc
  | funcDef ia name lineno endL decos body =>
    simp only [nodeWf, Bool.and_eq_true, decide_eq_true_eq, List.all_eq_true] at hwf
    obtain ⟨⟨⟨w1, w2⟩, w3⟩, w4⟩ := hwf
    have hds := defStart_bounds lineno decos w1 w4
    simp only [nodeChunk] at hc
    split at hc
    · have hc' := Option.some.inj hc
      rw [← hc']
      refine ⟨rfl, ⟨hds.1, le_trans hds.2 w2, w3⟩, Or.inl rfl⟩
    · exact Option.noConfusion hc
  | classDef name lineno endL decos body =>
    simp only [nodeWf, Bool.and_eq_true, decide_eq_true_eq, List.all_eq_true] at hwf
    obtain ⟨⟨⟨w1, w2⟩, w3⟩, w4⟩ := hwf
    have hds := defStart_bounds lineno decos w1 w4
    simp only [nodeChunk] at hc
    split at hc
    · have hc' := Option.some.inj hc
      rw [← hc']
      refine ⟨rfl, ⟨hds.1, le_min (Nat.le_add_right _ _) (le_trans hds.2 w2),
        le_trans (min_le_right _ _) w3⟩, Or.inr (Or.inr ⟨rfl, rfl⟩)⟩
    · have hc' := Option.some.inj hc
      rw [← hc']
      refine ⟨rfl, ⟨hds.1, le_trans hds.2 w2, w3⟩, Or.inl rfl⟩

theorem enum1_good (lines : List Str) : ∀ p ∈ enum1 lines, GoodPair lines p := by
  intro p hp
  unfold enum1 at hp
  rcases List.mem_map.mp hp with ⟨q, hq, he⟩
  have h1 : lines[q.1]? = some q.2 := List.mem_enum_iff_getElem?.mp hq
  have h2 : q.1 < lines.length := by
    by_contra hcon
    rw [List.getElem?_eq_none (by omega)] at h1
    exact Option.noConfusion h1
  rw [← he]
  exact ⟨by omega, by omega, by simpa using h1⟩

theorem enum1_pairwise (lines : List Str) :
    List.Pairwise (fun a b => a.1 < b.1) (enum1 lines) := by
  unfold enum1
  rw [List.pairwise_map]
  exact (pairwise_fst_lt_enum lines).imp (fun h => by simpa using Nat.succ_lt_succ h)

theorem insertChunk_mem (c d : Chunk) (l : List Chunk) :
    c ∈ insertChunk d l ↔ c = d ∨ c ∈ l := by
  induction l with
  | nil => simp [insertChunk]
  | cons e t ih =>
    simp only [insertChunk]
    split
    · simp only [List.mem_cons, ih]
      tauto
    · simp only [List.mem_cons]

theorem sortByStart_mem (c : Chunk) (l : List Chunk) :
    c ∈ sortByStart l ↔ c ∈ l := by
  unfold sortByStart
  induction l with
  | nil => simp
  | cons d t ih =>
    simp only [List.foldr_cons, insertChunk_mem, ih, List.mem_cons]

theorem moduleChunk_props (fc : FileChunker) (lines : List Str) (g : List (Nat × Str))
    (hne : g ≠ []) (hrun : ∃ b, RunFrom b g) (hgood : ∀ p ∈ g, GoodPair lines p)
    {c : Chunk} (hc : moduleChunk fc g = some c) :
    PrevOk c ∧ BoundsOk lines.length c ∧ ExactOk lines c ∧
      c.chunk_type = "module".toList := by
  obtain ⟨b, hb⟩ := hrun
  have hlen : 1 ≤ g.length := List.length_pos.mpr hne
  have hhead : (g.head?.map Prod.fst).getD 0 = b := runFrom_head hne hb
  have hlast : lastIdx g = b + g.length - 1 := runFrom_last hne hb
  have hb1 : 1 ≤ b := by
    cases g with
    | nil => exact absurd rfl hne
    | cons p tl =>
      have hgp := hgood p (List.mem_cons_self _ _)
      have : (((p :: tl).head?.map Prod.fst).getD 0) = p.1 := by simp
      rw [this] at hhead
      rw [← hhead]
      exact hgp.1
  have hlastmem : b + g.length - 1 ≤ lines.length := by
    have h1 : g.getLast? = some (g.getLast hne) := List.getLast?_eq_getLast_of_ne_nil hne
    have h2 : (g.getLast hne) ∈ g := List.getLast_mem hne
    have h3 := (hgood _ h2).2.1
    have h4 : lastIdx g = (g.getLast hne).1 := by
      unfold lastIdx
      rw [h1]
      rfl
    omega
  simp only [moduleChunk] at hc
  split at hc
  · have hc' := Option.some.inj hc
    rw [← hc']
    refine ⟨rfl, ?_, ?_, rfl⟩
    · refine ⟨?_, ?_, ?_⟩
      · show 1 ≤ (g.head?.map Prod.fst).getD 0
        omega
      · show (g.head?.map Prod.fst).getD 0 ≤ lastIdx g
        omega
      · show lastIdx g ≤ lines.length
        omega
    · refine Or.inl ?_
      show joinNl (g.map Prod.snd) =
        textOfRange lines ((g.head?.map Prod.fst).getD 0) (lastIdx g)
      rw [hhead, hlast]
      have hslice := run_snd_slice lines g b hb1 hb
        (fun p hp => (hgood p hp).2.2)
      unfold textOfRange sliceLines
      have e : (b + g.length - 1) - (b - 1) = g.length := by omega
      rw [e, ← hslice]
  · exact Option.noConfusion hc

theorem chunkPython_props (fc : FileChunker) (content : Str) (t : PyModule)
    (hwf : (walk t).all (nodeWf (splitNl content).length) = true) :
    ∀ c ∈ chunkPython fc content t,
      PrevOk c ∧ BoundsOk (splitNl content).length c ∧ ExactOk (splitNl content) c := by
  intro c hc
  simp only [chunkPython] at hc
  rw [sortByStart_mem] at hc
  rcases List.mem_append.mp hc with hc | hc
  · rcases List.mem_filterMap.mp hc with ⟨n, hn, he⟩
    exact nodeChunk_props fc _ n (List.all_eq_true.mp hwf n hn) he
  · rcases List.mem_filterMap.mp hc with ⟨g, hg, he⟩
    have hmlg : ∀ p ∈ (enum1 (splitNl content)).filter
        (fun p => !((walk t).map (nodeCover fc (splitNl content))).flatten.contains p.1),
        GoodPair (splitNl content) p :=
      fun p hp => enum1_good _ p (List.mem_filter.mp hp).1
    have hmlp := (enum1_pairwise (splitNl content)).filter
      (fun p => !((walk t).map (nodeCover fc (splitNl content))).flatten.contains p.1)
    have hspec := groupsAux_spec (splitNl content) _ [] 0 hmlp hmlg
      (by intro p hp; simp at hp) rfl (by intro h; exact absurd rfl h) g hg
    obtain ⟨hne, hrun, hgood⟩ := hspec
    have h := moduleChunk_props fc (splitNl content) g hne hrun hgood he
    exact ⟨h.1, h.2.1, h.2.2.1⟩

/-! ## Top-level invariants of `chunk_file` -/

theorem wholeFileChunk_props (content : Str) :
    PrevOk (wholeFileChunk content) ∧
      BoundsOk (splitNl content).length (wholeFileChunk content) ∧
      ExactOk (splitNl content) (wholeFileChunk content) := by
  refine ⟨rfl, ⟨le_refl 1, ?_, ?_⟩, Or.inl ?_⟩
  · show 1 ≤ content.count '\n' + 1
    omega
  · show content.count '\n' + 1 ≤ (splitNl content).length
    rw [splitNl_length]
  · show content = textOfRange (splitNl content) 1 (content.count '\n' + 1)
    rw [← splitNl_length, textOfRange_full]

theorem rawChunks_props (fc : FileChunker) (suffix content : Str)
    (parsed : Option PyModule)
    (hwf : wfParsed (splitNl content).length parsed = true) :
    ∀ c ∈ rawChunks fc suffix content parsed,
      PrevOk c ∧ BoundsOk (splitNl content).length c ∧ ExactOk (splitNl content) c := by
  intro c hc
  simp only [rawChunks] at hc
  split at hc
  · cases parsed with
    | none =>
      obtain ⟨h1, h2, h3, -⟩ := slidingWindow_props fc content c hc
      exact ⟨h1, h2, Or.inl h3⟩
    | some t => exact chunkPython_props fc content t hwf c hc
  · split at hc
    · exact chunkMarkdown_props fc content c hc
    · split at hc
      · obtain ⟨h1, h2, h3, -⟩ := slidingWindow_props fc content c hc
        exact ⟨h1, h2, Or.inl h3⟩
      · obtain ⟨h1, h2, h3, -⟩ := slidingWindow_props fc content c hc
        exact ⟨h1, h2, Or.inl h3⟩

theorem chunkFile_props (fc : FileChunker) (suffix content : Str)
    (parsed : Option PyModule)
    (hwf : wfParsed (splitNl content).length parsed = true) :
    ∀ c ∈ chunkFile fc suffix content parsed,
      PrevOk c ∧ BoundsOk (splitNl content).length c ∧ ExactOk (splitNl content) c := by
  intro c hc
  simp only [chunkFile] at hc
  split at hc
  · simp only [List.mem_singleton] at hc
    rw [hc]
    exact wholeFileChunk_props content
  · exact rawChunks_props fc suffix content parsed hwf c (List.mem_filter.mp hc).1

theorem makePreview_eq (x : Str) :
    makePreview x = pyStrip (x.take 200) ++
      (if 200 < x.length then "...".toList else []) := by
  unfold makePreview
  split
  · rfl
  · simp

/-! ## Claims -/

/-- C2: for every file path and content string, `chunk_file` returns a
non-empty list; when no strategy yields chunks whose estimated tokens reach
`min_tokens`, it returns exactly one `whole_file` chunk with `line_start = 1`
and `line_end` equal to the file's line count. -/
theorem c2_chunk_file_nonempty_fallback (fc : FileChunker) (suffix content : Str)
    (parsed : Option PyModule) :
    chunkFile fc suffix content parsed ≠ [] ∧
    ((∀ c ∈ rawChunks fc suffix content parsed,
        estimateTokens c.content < fc.min_tokens) →
      chunkFile fc suffix content parsed =
        [⟨content, "whole_file".toList, none, 1, (splitNl content).length,
          makePreview content⟩]) := by
  constructor
  · simp only [chunkFile]
    split
    · simp
    · rename_i hne
      exact isEmpty_false_ne_nil (by simpa using hne)
  · intro h
    have hf : (rawChunks fc suffix content parsed).filter
        (fun c => fc.min_tokens ≤ estimateTokens c.content) = [] := by
      rw [List.filter_eq_nil_iff]
      intro a ha
      simp only [decide_eq_true_eq, not_le]
      exact h a ha
    simp only [chunkFile, hf, List.isEmpty_nil, if_true]
    unfold wholeFileChunk
    rw [splitNl_length]

/-- Witness for C2 at a concrete input: a 1-token `.txt` file with
`min_tokens = 5` falls back to the single whole-file chunk. -/
theorem c2_witness :
    (∀ c ∈ rawChunks ⟨100, 10, 5⟩ ".txt".toList "hi".toList none,
        estimateTokens c.content < (⟨100, 10, 5⟩ : FileChunker).min_tokens) ∧
    chunkFile ⟨100, 10, 5⟩ ".txt".toList "hi".toList none ≠ [] ∧
    chunkFile ⟨100, 10, 5⟩ ".txt".toList "hi".toList none =
      [⟨"hi".toList, "whole_file".toList, none, 1, (splitNl "hi".toList).length,
        makePreview "hi".toList⟩] := by
  have h := c2_chunk_file_nonempty_fallback ⟨100, 10, 5⟩ ".txt".toList "hi".toList none
  exact ⟨by decide, h.1, h.2 (by decide)⟩

/-- C5: every chunk returned by `chunk_file` (any strategy) satisfies
`1 ≤ line_start ≤ line_end ≤ file_line_count`, assuming the parse result is
AST-sane for the file (as every CPython parse of the same content is). -/
theorem c5_line_range_invariant (fc : FileChunker) (suffix content : Str)
    (parsed : Option PyModule)
    (hwf : wfParsed (splitNl content).length parsed = true) :
    ∀ c ∈ chunkFile fc suffix content parsed,
      1 ≤ c.line_start ∧ c.line_start ≤ c.line_end ∧
        c.line_end ≤ (splitNl content).length :=
  fun c hc => (chunkFile_props fc suffix content parsed hwf c hc).2.1

/-- Witness for C5 at a concrete Python file. -/
theorem c5_witness :
    wfParsed (splitNl "def f():\n    pass".toList).length
      (some ⟨[.funcDef false "f".toList 1 (some 2) [] [.stmt []]]⟩) = true ∧
    ∀ c ∈ chunkFile ⟨100, 10, 1⟩ ".py".toList "def f():\n    pass".toList
        (some ⟨[.funcDef false "f".toList 1 (some 2) [] [.stmt []]]⟩),
      1 ≤ c.line_start ∧ c.line_start ≤ c.line_end ∧
        c.line_end ≤ (splitNl "def f():\n    pass".toList).length :=
  ⟨by decide, c5_line_range_invariant _ _ _ _ (by decide)⟩

/-- C6 counterexample: for the one-chunk file `" a"`, the produced preview is
`"a"` (`.strip()` removes the *leading* space too), while the claimed value —
the first 200 characters with only trailing whitespace stripped — is `" a"`;
in particular the preview is not a prefix of the content (taking the first
`len` characters of the content does not give the preview). -/
theorem c6_counterexample :
    (chunkFile ⟨100, 10, 1⟩ ".txt".toList " a".toList none).map Chunk.content =
      [" a".toList] ∧
    (chunkFile ⟨100, 10, 1⟩ ".txt".toList " a".toList none).map Chunk.preview =
      ["a".toList] ∧
    specPreview " a".toList = " a".toList ∧
    "a".toList ≠ specPreview " a".toList ∧
    (" a".toList).take ("a".toList).length ≠ "a".toList := by decide

/-- C6 amended: the preview is the first 200 characters of the content with
*leading and trailing* whitespace stripped, with `"..."` appended iff the
content exceeds 200 characters; the stripped core is a contiguous substring
(infix) of the content, though not necessarily a prefix. -/
theorem c6_preview_stripped_both_ends (fc : FileChunker) (suffix content : Str)
    (parsed : Option PyModule)
    (hwf : wfParsed (splitNl content).length parsed = true) :
    ∀ c ∈ chunkFile fc suffix content parsed,
      c.preview = pyStrip (c.content.take 200) ++
        (if 200 < c.content.length then "...".toList else []) ∧
      pyStrip (c.content.take 200) <:+: c.content := by
  intro c hc
  have h := (chunkFile_props fc suffix content parsed hwf c hc).1
  exact ⟨by rw [h, makePreview_eq], makePreview_core_within c.content⟩

/-- Witness for C6 (amended) at a concrete input. -/
theorem c6_witness :
    wfParsed (splitNl " a".toList).length none = true ∧
    ∀ c ∈ chunkFile ⟨100, 10, 1⟩ ".txt".toList " a".toList none,
      c.preview = pyStrip (c.content.take 200) ++
        (if 200 < c.content.length then "...".toList else []) ∧
      pyStrip (c.content.take 200) <:+: c.content :=
  ⟨rfl, c6_preview_stripped_both_ends _ _ _ _ (by decide)⟩

/-- C3 counterexample: the markdown file `"# A\nx\n"` produces one section
chunk with range 1–3 whose content is `"# A\nx"`, but the exact text of
lines 1–3 is `"# A\nx\n"` — `_chunk_markdown` strips the joined lines. -/
theorem c3_counterexample :
    (chunkFile ⟨100, 10, 1⟩ ".md".toList "# A\nx\n".toList none).map
        (fun c => (c.content, c.line_start, c.line_end)) =
      [("# A\nx".toList, 1, 3)] ∧
    textOfRange (splitNl "# A\nx\n".toList) 1 3 = "# A\nx\n".toList ∧
    ("# A\nx".toList : Str) ≠ "# A\nx\n".toList := by decide

/-- C3 amended: every chunk's content equals the exact text of its line
range, except that markdown `section` chunks are whitespace-`strip`ped and
truncated oversize `class` chunks carry an appended elided marker. -/
theorem c3_content_exactness (fc : FileChunker) (suffix content : Str)
    (parsed : Option PyModule)
    (hwf : wfParsed (splitNl content).length parsed = true) :
    ∀ c ∈ chunkFile fc suffix content parsed,
      c.content = textOfRange (splitNl content) c.line_start c.line_end ∨
      (c.chunk_type = "section".toList ∧
        c.content = pyStrip (textOfRange (splitNl content) c.line_start c.line_end)) ∨
      (c.chunk_type = "class".toList ∧
        c.content = textOfRange (splitNl content) c.line_start c.line_end ++
          classMarker) :=
  fun c hc => (chunkFile_props fc suffix content parsed hwf c hc).2.2

/-- Witness for C3 (amended) at the markdown counterexample input. -/
theorem c3_witness :
    wfParsed (splitNl "# A\nx\n".toList).length none = true ∧
    ∀ c ∈ chunkFile ⟨100, 10, 1⟩ ".md".toList "# A\nx\n".toList none,
      c.content = textOfRange (splitNl "# A\nx\n".toList) c.line_start c.line_end ∨
      (c.chunk_type = "section".toList ∧
        c.content = pyStrip (textOfRange (splitNl "# A\nx\n".toList) c.line_start
          c.line_end)) ∨
      (c.chunk_type = "class".toList ∧
        c.content = textOfRange (splitNl "# A\nx\n".toList) c.line_start c.line_end ++
          classMarker) :=
  ⟨rfl, c3_content_exactness _ _ _ _ (by decide)⟩

/-- C8 counterexample: for the three-word text `"a b c"` the code computes
`int(3 * 1.3) = 3`, but `round(3 × 1.3) = 4`. -/
theorem c8_counterexample :
    wordCount "a b c".toList = 3 ∧
    estimateTokens "a b c".toList = 3 ∧
    specRoundTokens (wordCount "a b c".toList) = 4 ∧
    estimateTokens "a b c".toList ≠ specRoundTokens (wordCount "a b c".toList) := by
  decide

/-- C8 amended: the token estimate is the *floor* (truncation) of
`word_count × 1.3`, not the rounding; `Chunk.token_estimate` uses the same
formula on the chunk's own content. -/
theorem c8_estimate_is_floor (s : Str) (c : Chunk) :
    estimateTokens s = ⌊(13 * (wordCount s : ℚ)) / 10⌋₊ ∧
    c.tokenEstimate = 13 * wordCount c.content / 10 := by
  refine ⟨?_, rfl⟩
  have e : (13 * (wordCount s : ℚ)) / 10 = ((13 * wordCount s : ℕ) : ℚ) / ((10 : ℕ) : ℚ) := by
    push_cast
    ring
  rw [e, Nat.floor_div_nat, Nat.floor_natCast]
  rfl

/-- C1 (code bug): `file_preview` performs no path-safety check against the
configured roots — it takes no roots at all.  An existing readable file
outside every root is served in full (first conjunct), and a nonexistent
path outside the roots yields a `File not found` message instead of the
access-denied error its own test suite asserts (second conjunct). -/
theorem c1_preview_lacks_root_check :
    filePreview "/etc/passwd".toList true "root:x:0:0:root".toList none none =
      .ok "/etc/passwd".toList "1-1".toList "   1 | root:x:0:0:root".toList 1 ∧
    filePreview "C:/Windows/System32/config".toList false [] none none =
      .err "File not found: C:/Windows/System32/config".toList := by decide

/-- C4 (code bug): `file_preview` performs no validation of the line
arguments.  On an existing three-line file, a negative `line_start` serves
the whole file, `line_end < line_start` and `line_start` beyond the last
line both return a success result with empty content — never an
invalid-argument error. -/
theorem c4_preview_lacks_line_validation :
    filePreview "/f.py".toList true "a\nb\nc".toList (some (-1)) none =
      .ok "/f.py".toList "1-3".toList "   1 | a\n   2 | b\n   3 | c".toList 3 ∧
    filePreview "/f.py".toList true "a\nb\nc".toList (some 10) (some 5) =
      .ok "/f.py".toList "10-9".toList [] 3 ∧
    filePreview "/f.py".toList true "a\nb\nc".toList (some 10) none =
      .ok "/f.py".toList "10-9".toList [] 3 := by decide

/-- C9: a successful `file_preview` numbers at most 100 lines
(exactly `min 100 selected`), and when the selected range exceeds 100 lines
the content ends with the `... (N more lines)` marker, `N` being the number
of omitted lines. -/
theorem c9_preview_caps_at_100 (path content : Str) (lineStart lineEnd : Option Int) :
    filePreview path true content lineStart lineEnd =
      .ok path (previewLinesField content lineStart lineEnd)
        (previewContent content lineStart lineEnd) (splitNl content).length ∧
    (previewNumbered content lineStart lineEnd).length =
      min 100 (previewSel content lineStart lineEnd).1.length ∧
    (previewNumbered content lineStart lineEnd).length ≤ 100 ∧
    (100 < (previewSel content lineStart lineEnd).1.length →
      previewContent content lineStart lineEnd =
        joinNl (previewNumbered content lineStart lineEnd) ++
          moreMarker ((previewSel content lineStart lineEnd).1.length - 100)) := by
  refine ⟨rfl, ?_, ?_, ?_⟩
  · simp [previewNumbered, List.enum_length, List.length_take]
  · simp [previewNumbered, List.enum_length, List.length_take]
  · intro h
    simp only [previewContent]
    rw [if_pos h]

set_option maxRecDepth 40000 in
/-- Witness for C9 at a 150-line file: the marker case fires. -/
theorem c9_witness :
    100 < (previewSel (joinNl (List.replicate 150 ['x'])) none none).1.length ∧
    previewContent (joinNl (List.replicate 150 ['x'])) none none =
      joinNl (previewNumbered (joinNl (List.replicate 150 ['x'])) none none) ++
        moreMarker ((previewSel (joinNl (List.replicate 150 ['x'])) none none).1.length
          - 100) :=
  ⟨by decide,
    (c9_preview_caps_at_100 [] (joinNl (List.replicate 150 ['x'])) none none).2.2.2
      (by decide)⟩

/-! ## Helpers for C7 and C10 -/

/-- The decorator line numbers of a node. -/
def PyNode.decos : PyNode → List Nat
  | .funcDef _ _ _ _ ds _ => ds
  | .classDef _ _ _ ds _ => ds
  | .stmt _ => []

theorem min?_le_mem {l : List Nat} {m : Nat} (h : l.min? = some m) :
    ∀ b ∈ l, m ≤ b :=
  ((List.min?_eq_some_iff (fun a => le_refl a) (fun a b => min_choice a b)
    (fun _ _ _ => le_min_iff)).mp h).2

theorem defStart_le_deco (lineno : Nat) (ds : List Nat) (d : Nat) (hd : d ∈ ds) :
    defStart lineno ds ≤ d := by
  unfold defStart
  split
  · rename_i he
    have hds : ds = [] := List.isEmpty_iff.mp he
    rw [hds] at hd
    simp at hd
  · unfold pyListMin
    cases hm : ds.min? with
    | none =>
      rw [List.min?_eq_none_iff.mp hm] at hd
      simp at hd
    | some m => exact min?_le_mem hm d hd

theorem moduleChunk_type {fc : FileChunker} {g : List (Nat × Str)} {c : Chunk}
    (hc : moduleChunk fc g = some c) : c.chunk_type = "module".toList := by
  simp only [moduleChunk] at hc
  split at hc
  · rw [← Option.some.inj hc]
  · exact Option.noConfusion hc

theorem nodeChunk_cover_range (fc : FileChunker) (lines : List Str) (n : PyNode)
    {c : Chunk} (hc : nodeChunk fc lines n = some c) :
    nodeCover fc lines n =
      List.range' c.line_start (c.line_end + 1 - c.line_start) := by
  cases n with
  | stmt b => simp [nodeChunk] at hc
  | funcDef ia nm ln el ds b =>
    simp only [nodeChunk] at hc
    split at hc
    · rename_i hcond
      rw [← Option.some.inj hc]
      simp only [nodeCover]
      rw [if_pos hcond]
    · exact Option.noConfusion hc
  | classDef nm ln el ds b =>
    simp only [nodeChunk] at hc
    split at hc
    · rename_i hcond
      rw [← Option.some.inj hc]
      simp only [nodeCover]
      rw [if_pos hcond]
    · rename_i hcond
      rw [← Option.some.inj hc]
      simp only [nodeCover]
      rw [if_neg hcond]

theorem classDef_chunk (fc : FileChunker) (lines : List Str) (nm : Str) (ln : Nat)
    (el : Option Nat) (ds : List Nat) (b : List PyNode) :
    ∃ c, nodeChunk fc lines (.classDef nm ln el ds b) = some c ∧
      c.chunk_type = "class".toList ∧ c.name = some nm := by
  simp only [nodeChunk]
  split
  · exact ⟨_, rfl, rfl, rfl⟩
  · exact ⟨_, rfl, rfl, rfl⟩

/-- C7 counterexample: in `"class A:\n    def m(self):\n        pass"` the
method `m` — not a top-level definition — is emitted as a separate
`function` chunk alongside the `class` chunk (`ast.walk` visits every
depth). -/
theorem c7_counterexample :
    (chunkFile ⟨100, 10, 1⟩ ".py".toList
        "class A:\n    def m(self):\n        pass".toList
        (some ⟨[.classDef "A".toList 1 (some 3) []
          [.funcDef false "m".toList 2 (some 3) [] [.stmt []]]]⟩)).map
      (fun c => (c.chunk_type, c.name, c.line_start, c.line_end)) =
    [("class".toList, some "A".toList, 1, 3),
     ("function".toList, some "m".toList, 2, 3)] := by decide

/-- C7 amended: `_chunk_python` extracts the function and class definitions
found at *every* nesting depth (`ast.walk`), subject to the oversize-function
limit: every definition whose node chunk exists appears in the output, every
`function`/`class` chunk of the output arises from some walked definition,
and each such chunk's line range starts at or before every decorator line. -/
theorem c7_defs_at_every_depth (fc : FileChunker) (content : Str) (t : PyModule) :
    (∀ n ∈ walk t, ∀ c, nodeChunk fc (splitNl content) n = some c →
      c ∈ chunkPython fc content t) ∧
    (∀ c ∈ chunkPython fc content t,
      (c.chunk_type = "function".toList ∨ c.chunk_type = "class".toList) →
      ∃ n ∈ walk t, nodeChunk fc (splitNl content) n = some c) ∧
    (∀ n ∈ walk t, ∀ c, nodeChunk fc (splitNl content) n = some c →
      ∀ d ∈ n.decos, c.line_start ≤ d) := by
  refine ⟨?_, ?_, ?_⟩
  · intro n hn c hcn
    simp only [chunkPython]
    rw [sortByStart_mem]
    exact List.mem_append_left _ (List.mem_filterMap.mpr ⟨n, hn, hcn⟩)
  · intro c hc hty
    simp only [chunkPython] at hc
    rw [sortByStart_mem] at hc
    rcases List.mem_append.mp hc with hc | hc
    · exact List.mem_filterMap.mp hc
    · rcases List.mem_filterMap.mp hc with ⟨g, hg, he⟩
      have hmod := moduleChunk_type he
      rcases hty with hty | hty <;> rw [hmod] at hty <;> exact absurd hty (by decide)
  · intro n hn c hcn d hd
    cases n with
    | stmt b => simp [PyNode.decos] at hd
    | funcDef ia nm ln el ds b =>
      simp only [nodeChunk] at hcn
      split at hcn
      · rw [← Option.some.inj hcn]
        exact defStart_le_deco ln ds d hd
      · exact Option.noConfusion hcn
    | classDef nm ln el ds b =>
      simp only [nodeChunk] at hcn
      split at hcn
      · rw [← Option.some.inj hcn]
        exact defStart_le_deco ln ds d hd
      · rw [← Option.some.inj hcn]
        exact defStart_le_deco ln ds d hd

/-- Witness for C7 (amended), applied at the counterexample input. -/
theorem c7_witness :
    (∀ n ∈ walk (⟨[.classDef "A".toList 1 (some 3) []
          [.funcDef false "m".toList 2 (some 3) [] [.stmt []]]]⟩ : PyModule),
      ∀ c, nodeChunk ⟨100, 10, 1⟩
          (splitNl "class A:\n    def m(self):\n        pass".toList) n = some c →
        c ∈ chunkPython ⟨100, 10, 1⟩
          "class A:\n    def m(self):\n        pass".toList
          ⟨[.classDef "A".toList 1 (some 3) []
            [.funcDef false "m".toList 2 (some 3) [] [.stmt []]]]⟩) ∧
    (∀ c ∈ chunkPython ⟨100, 10, 1⟩
        "class A:\n    def m(self):\n        pass".toList
        ⟨[.classDef "A".toList 1 (some 3) []
          [.funcDef false "m".toList 2 (some 3) [] [.stmt []]]]⟩,
      (c.chunk_type = "function".toList ∨ c.chunk_type = "class".toList) →
      ∃ n ∈ walk (⟨[.classDef "A".toList 1 (some 3) []
          [.funcDef false "m".toList 2 (some 3) [] [.stmt []]]]⟩ : PyModule),
        nodeChunk ⟨100, 10, 1⟩
          (splitNl "class A:\n    def m(self):\n        pass".toList) n = some c) :=
  ⟨(c7_defs_at_every_depth ⟨100, 10, 1⟩
      "class A:\n    def m(self):\n        pass".toList
      ⟨[.classDef "A".toList 1 (some 3) []
        [.funcDef false "m".toList 2 (some 3) [] [.stmt []]]]⟩).1,
   (c7_defs_at_every_depth ⟨100, 10, 1⟩
      "class A:\n    def m(self):\n        pass".toList
      ⟨[.classDef "A".toList 1 (some 3) []
        [.funcDef false "m".toList 2 (some 3) [] [.stmt []]]]⟩).2.1⟩

/-- C10: a function definition whose estimated token count exceeds
`2 × max_tokens` yields no chunk and no line coverage (unlike oversize
classes, which always yield a — possibly truncated — chunk); every
`function` chunk of the output fits the limit; `function`/`class` chunk
ranges lie inside `covered_lines` while `module` chunk ranges lie wholly
outside it, so uncovered lines can reappear only inside `module` chunks. -/
theorem c10_oversize_function_skipped (fc : FileChunker) (content : Str) (t : PyModule) :
    (∀ c ∈ chunkPython fc content t, c.chunk_type = "function".toList →
      estimateTokens c.content ≤ fc.max_tokens * 2) ∧
    (∀ n ∈ walk t, ∀ ia nm ln el ds b, n = PyNode.funcDef ia nm ln el ds b →
      fc.max_tokens * 2 < estimateTokens (textOfRange (splitNl content)
        (defStart ln ds) (el.getD ln)) →
      nodeChunk fc (splitNl content) n = none ∧
        nodeCover fc (splitNl content) n = []) ∧
    (∀ c ∈ chunkPython fc content t,
      (c.chunk_type = "function".toList ∨ c.chunk_type = "class".toList) →
      ∀ j, c.line_start ≤ j → j ≤ c.line_end →
        j ∈ ((walk t).map (nodeCover fc (splitNl content))).flatten) ∧
    (∀ c ∈ chunkPython fc content t, c.chunk_type = "module".toList →
      ∀ j, c.line_start ≤ j → j ≤ c.line_end →
        j ∉ ((walk t).map (nodeCover fc (splitNl content))).flatten) ∧
    (∀ n ∈ walk t, ∀ nm ln el ds b, n = PyNode.classDef nm ln el ds b →
      ∃ c ∈ chunkPython fc content t, c.chunk_type = "class".toList ∧
        c.name = some nm) := by
  refine ⟨?_, ?_, ?_, ?_, ?_⟩
  · intro c hc hty
    simp only [chunkPython] at hc
    rw [sortByStart_mem] at hc
    rcases List.mem_append.mp hc with hc | hc
    · rcases List.mem_filterMap.mp hc with ⟨n, hn, he⟩
      cases n with
      | stmt b => simp [nodeChunk] at he
      | funcDef ia nm ln el ds b =>
        simp only [nodeChunk] at he
        split at he
        · rename_i hcond
          rw [← Option.some.inj he]
          exact hcond
        · exact Option.noConfusion he
      | classDef nm ln el ds b =>
        simp only [nodeChunk] at he
        split at he <;> rw [← Option.some.inj he] at hty <;>
          exact absurd (show ("class".toList : Str) = "function".toList from hty)
            (by decide)
    · rcases List.mem_filterMap.mp hc with ⟨g, hg, he⟩
      rw [moduleChunk_type he] at hty
      exact absurd hty (by decide)
  · intro n hn ia nm ln el ds b hne hbig
    rw [hne]
    constructor
    · simp only [nodeChunk]
      rw [if_neg (not_le.mpr hbig)]
    · simp only [nodeCover]
      rw [if_neg (not_le.mpr hbig)]
  · intro c hc hty j hj1 hj2
    simp only [chunkPython] at hc
    rw [sortByStart_mem] at hc
    rcases List.mem_append.mp hc with hc | hc
    · rcases List.mem_filterMap.mp hc with ⟨n, hn, he⟩
      have hrange := nodeChunk_cover_range fc (splitNl content) n he
      refine List.mem_flatten.mpr ⟨nodeCover fc (splitNl content) n,
        List.mem_map_of_mem _ hn, ?_⟩
      rw [hrange]
      exact List.mem_range'.mpr ⟨j - c.line_start, by omega, by omega⟩
    · rcases List.mem_filterMap.mp hc with ⟨g, hg, he⟩
      rw [moduleChunk_type he] at hty
      rcases hty with hty | hty <;> exact absurd hty (by decide)
  · intro c hc hty j hj1 hj2 hjmem
    simp only [chunkPython] at hc
    rw [sortByStart_mem] at hc
    rcases List.mem_append.mp hc with hc | hc
    · rcases List.mem_filterMap.mp hc with ⟨n, hn, he⟩
      cases n with
      | stmt b => simp [nodeChunk] at he
      | funcDef ia nm ln el ds b =>
        simp only [nodeChunk] at he
        split at he
        · rw [← Option.some.inj he] at hty
          exact absurd (show ("function".toList : Str) = "module".toList from hty)
            (by decide)
        · exact Option.noConfusion he
      | classDef nm ln el ds b =>
        simp only [nodeChunk] at he
        split at he <;> rw [← Option.some.inj he] at hty <;>
          exact absurd (show ("class".toList : Str) = "module".toList from hty)
            (by decide)
    · rcases List.mem_filterMap.mp hc with ⟨g, hg, he⟩
      have hmlg : ∀ p ∈ (enum1 (splitNl content)).filter
          (fun p => !((walk t).map (nodeCover fc (splitNl content))).flatten.contains p.1),
          GoodPair (splitNl content) p :=
        fun p hp => enum1_good _ p (List.mem_filter.mp hp).1
      have hmlp := (enum1_pairwise (splitNl content)).filter
        (fun p => !((walk t).map (nodeCover fc (splitNl content))).flatten.contains p.1)
      obtain ⟨hgne, ⟨b, hb⟩, hgood⟩ := groupsAux_spec (splitNl content) _ [] 0 hmlp hmlg
        (by intro p hp; simp at hp) rfl (by intro h; exact absurd rfl h) g hg
      have hhead : (g.head?.map Prod.fst).getD 0 = b := runFrom_head hgne hb
      have hlast : lastIdx g = b + g.length - 1 := runFrom_last hgne hb
      have hcs : c.line_start = b ∧ c.line_end = b + g.length - 1 := by
        simp only [moduleChunk] at he
        split at he
        · rw [← Option.some.inj he]
          exact ⟨hhead, hlast⟩
        · exact Option.noConfusion he
      have hlen : 1 ≤ g.length := List.length_pos.mpr hgne
      have hjrun : j ∈ g.map Prod.fst := by
        rw [hb]
        exact List.mem_range'.mpr ⟨j - b, by omega, by omega⟩
      rcases List.mem_map.mp hjrun with ⟨p, hp, hpj⟩
      rcases groupsAux_subset _ _ _ hg p hp with hcur | hml
      · simp at hcur
      · have hfilter := (List.mem_filter.mp hml).2
        simp only [Bool.not_eq_true'] at hfilter
        rw [hpj] at hfilter
        have hncon : ¬ j ∈ ((walk t).map (nodeCover fc (splitNl content))).flatten := by
          simpa using hfilter
        exact hncon hjmem
  · intro n hn nm ln el ds b hne
    obtain ⟨c, hcn, hty, hnm⟩ := classDef_chunk fc (splitNl content) nm ln el ds b
    refine ⟨c, ?_, hty, hnm⟩
    simp only [chunkPython]
    rw [sortByStart_mem]
    rw [hne] at hn
    exact List.mem_append_left _ (List.mem_filterMap.mpr ⟨_, hn, hcn⟩)

/-- Witness for C10: with `max_tokens = 0` the sole top-level function of
`"def f():\n    pass"` is oversize (3 estimated tokens), so it produces no
chunk and covers no lines. -/
theorem c10_witness :
    nodeChunk ⟨0, 0, 1⟩ (splitNl "def f():\n    pass".toList)
        (PyNode.funcDef false "f".toList 1 (some 2) [] [.stmt []]) = none ∧
    nodeCover ⟨0, 0, 1⟩ (splitNl "def f():\n    pass".toList)
        (PyNode.funcDef false "f".toList 1 (some 2) [] [.stmt []]) = [] :=
  (c10_oversize_function_skipped ⟨0, 0, 1⟩ "def f():\n    pass".toList
      ⟨[PyNode.funcDef false "f".toList 1 (some 2) [] [.stmt []]]⟩).2.1
    (PyNode.funcDef false "f".toList 1 (some 2) [] [.stmt []])
    (List.mem_cons_self _ _) false "f".toList 1 (some 2) [] [.stmt []] rfl (by decide)

end FileCompass
